import Mathlib

/-!
Shallow embedding of the memory-map acquisition and classification stage of
the ferrous-kernel boot loader (`src/boot/src/memory.rs` and
`src/boot/src/boot_info.rs`), together with proofs of the specified
properties.

Machine integers (`u64`) are modelled as `Nat`; where the Rust code can
overflow, the reduction modulo `2^64` (release-mode wrapping) or the
saturation at `u64::MAX` (`saturating_add`) is made explicit.
-/

namespace Ferrous

/-- The `u64` modulus, `2^64`. -/
def U64_MOD : Nat := 2 ^ 64

/-- Rust `u64::MAX`, the largest representable 64-bit value. -/
def U64_MAX : Nat := U64_MOD - 1

/-- Rust `u64::saturating_add` (on values below `2^64`). -/
def satAdd (a b : Nat) : Nat := min (a + b) U64_MAX

/-- Enum `MemoryRegionType` from `src/boot/src/memory.rs`. -/
inductive MemoryRegionType where
  | Usable
  | Reserved
  | AcpiReclaimable
  | AcpiNvs
  | Mmio
  | MmioPortSpace
  | BootServicesCode
  | BootServicesData
  | RuntimeServicesCode
  | RuntimeServicesData
  | LoaderCode
  | LoaderData
  | Conventional
  | Unusable
  | Persistent
  | Unknown
  deriving DecidableEq, Repr

/-- The firmware-code classifier, `impl From<UefiMemoryType> for MemoryRegionType`
in `src/boot/src/memory.rs`.  The numeric codes are the values of the UEFI
`MemoryType` constants matched there (`RESERVED` = 0, `LOADER_CODE` = 1,
`LOADER_DATA` = 2, `BOOT_SERVICES_CODE` = 3, `BOOT_SERVICES_DATA` = 4,
`RUNTIME_SERVICES_CODE` = 5, `RUNTIME_SERVICES_DATA` = 6, `CONVENTIONAL` = 7,
`UNUSABLE` = 8, `ACPI_RECLAIM` = 9, `ACPI_NON_VOLATILE` = 10, `MMIO` = 11,
`MMIO_PORT_SPACE` = 12, `PERSISTENT_MEMORY` = 14); every other code,
including `PAL_CODE` = 13, falls through to the wildcard arm. -/
def classify (code : Nat) : MemoryRegionType :=
  match code with
  | 0 => .Reserved
  | 1 => .LoaderCode
  | 2 => .LoaderData
  | 3 => .BootServicesCode
  | 4 => .BootServicesData
  | 5 => .RuntimeServicesCode
  | 6 => .RuntimeServicesData
  | 7 => .Conventional
  | 8 => .Unusable
  | 9 => .AcpiReclaimable
  | 10 => .AcpiNvs
  | 11 => .Mmio
  | 12 => .MmioPortSpace
  | 14 => .Persistent
  | _ => .Unknown

/-- Method `MemoryRegionType::is_usable` from `src/boot/src/memory.rs`. -/
def MemoryRegionType.is_usable (t : MemoryRegionType) : Bool :=
  match t with
  | .Usable
  | .Conventional
  | .BootServicesCode
  | .BootServicesData
  | .LoaderCode
  | .LoaderData
  | .AcpiReclaimable => true
  | _ => false

/-- The `matches!(region_type, Mmio | MmioPortSpace)` test used by
`MemoryMap::from_uefi_descriptors` when accumulating `total_memory`. -/
def isMmioRegion (t : MemoryRegionType) : Bool :=
  match t with
  | .Mmio
  | .MmioPortSpace => true
  | _ => false

/-- Struct `MemoryRegion` from `src/boot/src/memory.rs`. -/
structure MemoryRegion where
  start : Nat
  size : Nat
  region_type : MemoryRegionType
  attributes : Nat
  deriving DecidableEq, Repr

/-- Constructor `MemoryRegion::new`. -/
def MemoryRegion.new (start size : Nat) (region_type : MemoryRegionType)
    (attributes : Nat) : MemoryRegion :=
  ⟨start, size, region_type, attributes⟩

/-- Method `MemoryRegion::end` (`end` is a Lean keyword, hence `endAddr`):
`self.start + self.size` as release-mode `u64` addition, which wraps
modulo `2^64` on overflow. -/
def MemoryRegion.endAddr (r : MemoryRegion) : Nat :=
  (r.start + r.size) % U64_MOD

/-- A UEFI memory descriptor as read by `MemoryMap::from_uefi_descriptors`:
physical start, page count, firmware type code, attribute bits. -/
structure MemoryDescriptor where
  phys_start : Nat
  page_count : Nat
  ty : Nat
  att : Nat
  deriving DecidableEq, Repr

/-- The `PAGE_SIZE` constant from `MemoryMap::from_uefi_descriptors`. -/
def PAGE_SIZE : Nat := 4096

/-- Struct `MemoryMap` from `src/boot/src/memory.rs`: region list plus the two
cached aggregates. -/
structure MemoryMap where
  regions : List MemoryRegion
  total_memory : Nat
  usable_memory : Nat
  deriving DecidableEq, Repr

/-- The region built from one descriptor inside the
`from_uefi_descriptors` loop: `size = page_count * PAGE_SIZE` (a `u64`
multiplication, wrapping modulo `2^64`), type via the classifier,
attributes carried through. -/
def descRegion (d : MemoryDescriptor) : MemoryRegion :=
  MemoryRegion.new d.phys_start ((d.page_count * PAGE_SIZE) % U64_MOD)
    (classify d.ty) d.att

/-- Builder `MemoryMap::from_uefi_descriptors`: build one region per descriptor,
accumulate `total_memory` (skipping `Mmio`/`MmioPortSpace`) and
`usable_memory` with `saturating_add` in input order, then sort the region
list by start address (`sort_by_key`, modelled by the stable `mergeSort`). -/
def MemoryMap.from_uefi_descriptors (descriptors : List MemoryDescriptor) : MemoryMap :=
  let regions := descriptors.map descRegion
  let total := regions.foldl
    (fun acc r => if isMmioRegion r.region_type then acc else satAdd acc r.size) 0
  let usable := regions.foldl
    (fun acc r => if r.region_type.is_usable then satAdd acc r.size else acc) 0
  ⟨regions.mergeSort (fun a b => decide (a.start ≤ b.start)), total, usable⟩

/-- Method `MemoryMap::region_count`. -/
def MemoryMap.region_count (m : MemoryMap) : Nat :=
  m.regions.length

/-- Method `MemoryMap::usable_regions`: filter of the region list by usability. -/
def MemoryMap.usable_regions (m : MemoryMap) : List MemoryRegion :=
  m.regions.filter (fun r => r.region_type.is_usable)

/-- Rust's `Iterator::max_by_key` specialised to regions: fold that keeps
the accumulator only when its key is strictly greater, so that among
equal-key elements the LAST one is returned, matching the documented
behaviour of `max_by_key`. -/
def max_by_key (key : MemoryRegion → Nat) : List MemoryRegion → Option MemoryRegion
  | [] => none
  | x :: xs => some (xs.foldl (fun acc y => if key y < key acc then acc else y) x)

/-- Method `MemoryMap::largest_usable_region`:
`self.usable_regions().max_by_key(|r| r.size)`. -/
def MemoryMap.largest_usable_region (m : MemoryMap) : Option MemoryRegion :=
  max_by_key (fun r => r.size) m.usable_regions

/-- Enum `PixelFormat` from `src/boot/src/boot_info.rs`. -/
inductive PixelFormat where
  | Rgb
  | Bgr
  | Bitmask (red green blue reserved : Nat)
  | Unknown
  deriving DecidableEq, Repr

/-- Method `PixelFormat::bytes_per_pixel`. -/
def PixelFormat.bytes_per_pixel (p : PixelFormat) : Nat :=
  match p with
  | .Rgb | .Bgr => 4
  | .Bitmask _ _ _ _ => 4
  | .Unknown => 4

/-- Struct `FramebufferInfo` from `src/boot/src/boot_info.rs`. -/
structure FramebufferInfo where
  base_address : Nat
  width : Nat
  height : Nat
  stride : Nat
  pixel_format : PixelFormat
  deriving DecidableEq, Repr

/-- Method `FramebufferInfo::size`: `stride as u64 * height as u64` (exact: the
product of two `u32` values always fits in a `u64`). -/
def FramebufferInfo.size (fb : FramebufferInfo) : Nat :=
  fb.stride * fb.height

/-- Method `FramebufferInfo::bytes_per_pixel`. -/
def FramebufferInfo.bytes_per_pixel (fb : FramebufferInfo) : Nat :=
  fb.pixel_format.bytes_per_pixel

/-- Struct `BootInfo` from `src/boot/src/boot_info.rs`. -/
structure BootInfo where
  memory_map : MemoryMap
  acpi_rsdp_address : Option Nat
  framebuffer : Option FramebufferInfo
  deriving DecidableEq, Repr

/-- Constructor `BootInfo::new`. -/
def BootInfo.new (memory_map : MemoryMap) : BootInfo :=
  ⟨memory_map, none, none⟩

/-- Method `BootInfo::total_memory`. -/
def BootInfo.total_memory (b : BootInfo) : Nat :=
  b.memory_map.total_memory

/-- Method `BootInfo::total_memory_mb`. -/
def BootInfo.total_memory_mb (b : BootInfo) : Nat :=
  b.total_memory / (1024 * 1024)

/-- Method `BootInfo::usable_memory`. -/
def BootInfo.usable_memory (b : BootInfo) : Nat :=
  b.memory_map.usable_memory

/-- Method `BootInfo::usable_memory_mb`. -/
def BootInfo.usable_memory_mb (b : BootInfo) : Nat :=
  b.usable_memory / (1024 * 1024)

/-- Saturating sum of a list of sizes, following the spec's words: `u64`
saturating addition folded over the list (used to state the aggregate
claims against the built map). -/
def saturatingSum (sizes : List Nat) : Nat :=
  sizes.foldl satAdd 0

/-! ### Helper lemmas -/

lemma satAdd_le_max (a b : Nat) : satAdd a b ≤ U64_MAX :=
  Nat.min_le_right _ _

lemma foldl_satAdd_min (l : List Nat) :
    ∀ acc : Nat, acc ≤ U64_MAX → l.foldl satAdd acc = min (acc + l.sum) U64_MAX := by
  induction l with
  | nil =>
    intro acc h
    simp [Nat.min_eq_left, h]
  | cons x t ih =>
    intro acc h
    have h' : satAdd acc x ≤ U64_MAX := satAdd_le_max acc x
    rw [List.foldl_cons, ih (satAdd acc x) h', List.sum_cons]
    simp only [satAdd, Nat.min_def]
    split_ifs <;> omega

lemma saturatingSum_eq_min (l : List Nat) : saturatingSum l = min l.sum U64_MAX := by
  have h0 : (0 : Nat) ≤ U64_MAX := Nat.zero_le _
  simpa using foldl_satAdd_min l 0 h0

lemma foldl_add_if_eq_filter (p : MemoryRegion → Bool) (l : List MemoryRegion) :
    ∀ acc : Nat,
      l.foldl (fun a r => if p r then satAdd a r.size else a) acc
        = ((l.filter p).map (fun r => r.size)).foldl satAdd acc := by
  induction l with
  | nil => intro acc; rfl
  | cons x t ih =>
    intro acc
    by_cases hp : p x <;> simp [hp, ih]

lemma foldl_skip_if_eq_filter (p : MemoryRegion → Bool) (l : List MemoryRegion) :
    ∀ acc : Nat,
      l.foldl (fun a r => if p r then a else satAdd a r.size) acc
        = ((l.filter (fun r => !p r)).map (fun r => r.size)).foldl satAdd acc := by
  induction l with
  | nil => intro acc; rfl
  | cons x t ih =>
    intro acc
    by_cases hp : p x <;> simp [hp, ih]

/-- The region list of a built map is a permutation of the regions derived
from the descriptors in input order. -/
lemma regions_perm (descriptors : List MemoryDescriptor) :
    (MemoryMap.from_uefi_descriptors descriptors).regions.Perm
      (descriptors.map descRegion) :=
  List.mergeSort_perm (descriptors.map descRegion) _

/-- The region list of a built map is sorted non-decreasing by start. -/
lemma regions_sorted (descriptors : List MemoryDescriptor) :
    List.Pairwise (fun a b : MemoryRegion => a.start ≤ b.start)
      (MemoryMap.from_uefi_descriptors descriptors).regions := by
  have htrans : ∀ a b c : MemoryRegion,
      decide (a.start ≤ b.start) = true → decide (b.start ≤ c.start) = true →
      decide (a.start ≤ c.start) = true := by
    intro a b c h1 h2
    simp only [decide_eq_true_eq] at *
    omega
  have htotal : ∀ a b : MemoryRegion,
      (decide (a.start ≤ b.start) || decide (b.start ≤ a.start)) = true := by
    intro a b
    simpa using Nat.le_total a.start b.start
  have h := @List.sorted_mergeSort MemoryRegion
    (fun a b => decide (a.start ≤ b.start)) htrans htotal
    (descriptors.map descRegion)
  exact h.imp (by simp)

lemma total_memory_eq_min (descriptors : List MemoryDescriptor) :
    (MemoryMap.from_uefi_descriptors descriptors).total_memory
      = min ((((descriptors.map descRegion).filter
          (fun r => !isMmioRegion r.region_type)).map (fun r => r.size)).sum) U64_MAX := by
  show ((descriptors.map descRegion).foldl
      (fun acc r => if isMmioRegion r.region_type then acc else satAdd acc r.size) 0) = _
  rw [foldl_skip_if_eq_filter (fun r => isMmioRegion r.region_type)]
  simpa using foldl_satAdd_min _ 0 (Nat.zero_le _)

lemma usable_memory_eq_min (descriptors : List MemoryDescriptor) :
    (MemoryMap.from_uefi_descriptors descriptors).usable_memory
      = min ((((descriptors.map descRegion).filter
          (fun r => r.region_type.is_usable)).map (fun r => r.size)).sum) U64_MAX := by
  show ((descriptors.map descRegion).foldl
      (fun acc r => if r.region_type.is_usable then satAdd acc r.size else acc) 0) = _
  rw [foldl_add_if_eq_filter (fun r => r.region_type.is_usable)]
  simpa using foldl_satAdd_min _ 0 (Nat.zero_le _)

/-- A usable tag is never one of the MMIO tags. -/
lemma usable_not_mmio (t : MemoryRegionType) (h : t.is_usable = true) :
    isMmioRegion t = false := by
  cases t <;> simp_all [MemoryRegionType.is_usable, isMmioRegion]

lemma sum_filter_usable_le (l : List MemoryRegion) :
    ((l.filter (fun r => r.region_type.is_usable)).map (fun r => r.size)).sum
      ≤ ((l.filter (fun r => !isMmioRegion r.region_type)).map (fun r => r.size)).sum := by
  induction l with
  | nil => simp
  | cons x t ih =>
    by_cases hu : x.region_type.is_usable
    · have hm : isMmioRegion x.region_type = false := usable_not_mmio _ hu
      simp [hu, hm]
      omega
    · by_cases hm : isMmioRegion x.region_type <;> simp [hu, hm] <;> omega

/-- The fold underlying `max_by_key` applied to a start-sorted list returns
an element of the list with maximal key, and among equal-key elements one
with the greatest start (the fold keeps the accumulator only on a strictly
greater key, so the last maximum wins). -/
lemma foldl_max_spec (key : MemoryRegion → Nat) (l : List MemoryRegion) :
    ∀ x : MemoryRegion,
      List.Pairwise (fun a b : MemoryRegion => a.start ≤ b.start) (x :: l) →
      l.foldl (fun acc y => if key y < key acc then acc else y) x ∈ x :: l ∧
      (∀ y ∈ x :: l,
        key y ≤ key (l.foldl (fun acc y => if key y < key acc then acc else y) x)) ∧
      (∀ y ∈ x :: l,
        key y = key (l.foldl (fun acc y => if key y < key acc then acc else y) x) →
        y.start ≤ (l.foldl (fun acc y => if key y < key acc then acc else y) x).start) := by
  induction l with
  | nil =>
    intro x _
    refine ⟨List.mem_cons_self x [], ?_, ?_⟩
    · intro y hy
      simp at hy
      subst hy
      exact Nat.le_refl _
    · intro y hy _
      simp at hy
      subst hy
      exact Nat.le_refl _
  | cons z t ih =>
    intro x hp
    have hxz : x.start ≤ z.start := (List.pairwise_cons.mp hp).1 z (List.mem_cons_self z t)
    have hxt : ∀ y ∈ t, x.start ≤ y.start := by
      intro y hy
      exact (List.pairwise_cons.mp hp).1 y (List.mem_cons_of_mem z hy)
    have hzt : ∀ y ∈ t, z.start ≤ y.start :=
      (List.pairwise_cons.mp (List.pairwise_cons.mp hp).2).1
    have hpt : List.Pairwise (fun a b : MemoryRegion => a.start ≤ b.start) t :=
      (List.pairwise_cons.mp (List.pairwise_cons.mp hp).2).2
    set x' : MemoryRegion := if key z < key x then x else z with hx'
    have hp' : List.Pairwise (fun a b : MemoryRegion => a.start ≤ b.start) (x' :: t) := by
      refine List.pairwise_cons.mpr ⟨?_, hpt⟩
      intro y hy
      rw [hx']
      split
      · exact hxt y hy
      · exact hzt y hy
    obtain ⟨hmem, hbound, hties⟩ := ih x' hp'
    set r : MemoryRegion := t.foldl (fun acc y => if key y < key acc then acc else y) x' with hr
    have hkx : key x ≤ key x' := by
      rw [hx']
      split
      · exact Nat.le_refl _
      · omega
    have hkz : key z ≤ key x' := by
      rw [hx']
      split
      · omega
      · exact Nat.le_refl _
    have hsx : x.start ≤ x'.start := by
      rw [hx']
      split
      · exact Nat.le_refl _
      · exact hxz
    have hkxr : key x' ≤ key r := hbound x' (List.mem_cons_self x' t)
    have hfold : (z :: t).foldl (fun acc y => if key y < key acc then acc else y) x = r := by
      rw [List.foldl_cons]
    refine ⟨?_, ?_, ?_⟩
    · rw [hfold]
      rcases List.mem_cons.mp hmem with h | h
      · rw [h, hx']
        split
        · exact List.mem_cons_self _ _
        · exact List.mem_cons_of_mem _ (List.mem_cons_self _ _)
      · exact List.mem_cons_of_mem _ (List.mem_cons_of_mem _ h)
    · intro y hy
      rw [hfold]
      rcases List.mem_cons.mp hy with h | h
      · subst h
        omega
      · rcases List.mem_cons.mp h with h' | h'
        · subst h'
          omega
        · exact hbound y (List.mem_cons_of_mem _ h')
    · intro y hy hkey
      rw [hfold] at hkey ⊢
      rcases List.mem_cons.mp hy with h | h
      · subst h
        have hx'r : key x' = key r := by omega
        have := hties x' (List.mem_cons_self x' t) hx'r
        omega
      · rcases List.mem_cons.mp h with h' | h'
        · subst h'
          have hx'r : key x' = key r := by omega
          have hstep := hties x' (List.mem_cons_self x' t) hx'r
          have hzx' : y.start ≤ x'.start := by
            rw [hx']
            split
            · omega
            · exact Nat.le_refl _
          omega
        · exact hties y (List.mem_cons_of_mem _ h') hkey

/-! ### Claim theorems -/

/-- C1: `is_usable` returns true exactly for `Usable`, `Conventional`,
`BootServicesCode`, `BootServicesData`, `LoaderCode`, `LoaderData`, and
`AcpiReclaimable`; for every other tag, including `Unknown`, it returns
false. -/
theorem is_usable_iff_mem_fixed_set (t : MemoryRegionType) :
    t.is_usable = true ↔
      (t = .Usable ∨ t = .Conventional ∨ t = .BootServicesCode ∨
       t = .BootServicesData ∨ t = .LoaderCode ∨ t = .LoaderData ∨
       t = .AcpiReclaimable) := by
  cases t <;> simp [MemoryRegionType.is_usable]

/-- C2: the classifier is a total pure function: the fourteen recognized
firmware codes map to their like-named tags, and every code outside that
set maps to `Unknown` rather than failing. -/
theorem classify_total_and_fixed_table (c : Nat) :
    classify 0 = .Reserved ∧ classify 1 = .LoaderCode ∧
    classify 2 = .LoaderData ∧ classify 3 = .BootServicesCode ∧
    classify 4 = .BootServicesData ∧ classify 5 = .RuntimeServicesCode ∧
    classify 6 = .RuntimeServicesData ∧ classify 7 = .Conventional ∧
    classify 8 = .Unusable ∧ classify 9 = .AcpiReclaimable ∧
    classify 10 = .AcpiNvs ∧ classify 11 = .Mmio ∧
    classify 12 = .MmioPortSpace ∧ classify 14 = .Persistent ∧
    (c ∉ ([0, 1, 2, 3, 4, 5, 6, 7, 8, 9, 10, 11, 12, 14] : List Nat) →
      classify c = .Unknown) := by
  refine ⟨rfl, rfl, rfl, rfl, rfl, rfl, rfl, rfl, rfl, rfl, rfl, rfl, rfl, rfl, ?_⟩
  intro h
  rcases Nat.lt_or_ge c 15 with hlt | hge
  · interval_cases c <;> first | rfl | exact absurd (by decide) h
  · obtain ⟨k, hk⟩ := Nat.exists_eq_add_of_le hge
    subst hk
    rw [Nat.add_comm 15 k]
    rfl

/-- C2 witness: the unrecognized codes 13 (`PAL_CODE`) and 99 classify to
`Unknown`. -/
theorem classify_unknown_witness :
    classify 13 = .Unknown ∧ classify 99 = .Unknown :=
  ⟨(classify_total_and_fixed_table 13).2.2.2.2.2.2.2.2.2.2.2.2.2.2 (by decide),
   (classify_total_and_fixed_table 99).2.2.2.2.2.2.2.2.2.2.2.2.2.2 (by decide)⟩

unseal List.merge List.mergeSort in
/-- C6: building from the empty descriptor sequence succeeds and yields a
map with zero regions, zero total memory and zero usable memory. -/
theorem from_uefi_descriptors_empty :
    MemoryMap.from_uefi_descriptors [] = ⟨[], 0, 0⟩ ∧
    (MemoryMap.from_uefi_descriptors []).region_count = 0 ∧
    (MemoryMap.from_uefi_descriptors []).total_memory = 0 ∧
    (MemoryMap.from_uefi_descriptors []).usable_memory = 0 := by
  refine ⟨rfl, rfl, rfl, rfl⟩

/-- C7 counterexample: at `start = 2^64 - 2048`, `size = 4096`, release-mode
`end()` yields the silently wrapped value 2048 instead of the mathematical
sum `start + size`. -/
theorem end_wraps_counterexample :
    MemoryRegion.endAddr ⟨U64_MOD - 2048, 4096, .Conventional, 0⟩ = 2048 ∧
    (U64_MOD - 2048) + 4096 ≠ 2048 := by
  constructor
  · decide
  · decide

/-- C7 amended: `end()` returns `start + size` (exclusive bound) whenever
the sum fits in 64 bits; when it mathematically exceeds the address-space
ceiling the result wraps modulo `2^64` (release-mode `u64` addition) rather
than being preserved or trapped. -/
theorem end_eq_start_add_size (r : MemoryRegion) (h : r.start + r.size < U64_MOD) :
    r.endAddr = r.start + r.size :=
  Nat.mod_eq_of_lt h

/-- C7 witness: a region at 4096 of size 8192 has exclusive end 12288. -/
theorem end_eq_start_add_size_witness :
    MemoryRegion.endAddr ⟨4096, 8192, .Conventional, 0⟩ = 4096 + 8192 :=
  end_eq_start_add_size ⟨4096, 8192, .Conventional, 0⟩ (by decide)

/-- C8: the megabyte accessors divide the byte totals by 1048576 with the
remainder truncated; a map with under 1 MiB usable memory reports 0. -/
theorem memory_mb_truncating (b : BootInfo) :
    b.total_memory_mb = b.memory_map.total_memory / 1048576 ∧
    b.usable_memory_mb = b.memory_map.usable_memory / 1048576 ∧
    (b.memory_map.usable_memory < 1048576 → b.usable_memory_mb = 0) := by
  refine ⟨rfl, rfl, fun h => ?_⟩
  show b.memory_map.usable_memory / (1024 * 1024) = 0
  exact Nat.div_eq_of_lt h

/-- C8 witness: a boot info whose map holds one conventional page (4096
bytes usable, under 1 MiB) reports 0 usable megabytes. -/
theorem memory_mb_truncating_witness :
    (BootInfo.new (MemoryMap.from_uefi_descriptors [⟨0, 1, 7, 0⟩])).usable_memory_mb = 0 ∧
    (MemoryMap.from_uefi_descriptors [⟨0, 1, 7, 0⟩]).usable_memory < 1048576 :=
  ⟨(memory_mb_truncating
      (BootInfo.new (MemoryMap.from_uefi_descriptors [⟨0, 1, 7, 0⟩]))).2.2 (by decide),
   by decide⟩

/-- C9: framebuffer size is stride times height (not width times
bytes-per-pixel), bytes-per-pixel is 4 for every pixel format, and the
stride 3200 / height 1080 example yields 3456000 bytes. -/
theorem framebuffer_size_and_bpp (fb : FramebufferInfo) :
    fb.size = fb.stride * fb.height ∧
    (∀ p : PixelFormat, p.bytes_per_pixel = 4) ∧
    fb.bytes_per_pixel = 4 ∧
    FramebufferInfo.size ⟨0, 800, 1080, 3200, .Rgb⟩ = 3456000 := by
  refine ⟨rfl, ?_, ?_, by decide⟩
  · intro p
    cases p <;> rfl
  · show fb.pixel_format.bytes_per_pixel = 4
    cases fb.pixel_format <;> rfl

/-- C3: for every descriptor sequence, the built map's region list is
sorted non-decreasing by start address and has the same length as the
input (no region dropped, none invented). -/
theorem regions_sorted_and_length (descriptors : List MemoryDescriptor) :
    List.Pairwise (fun a b : MemoryRegion => a.start ≤ b.start)
      (MemoryMap.from_uefi_descriptors descriptors).regions ∧
    (MemoryMap.from_uefi_descriptors descriptors).regions.length
      = descriptors.length := by
  refine ⟨regions_sorted descriptors, ?_⟩
  have h := (regions_perm descriptors).length_eq
  simpa using h

/-- C4: `total_memory` is the saturating sum of the sizes of all regions
except those tagged `Mmio`/`MmioPortSpace`, and `usable_memory` is the
saturating sum of the sizes of the usable-tagged regions. -/
theorem totals_are_saturating_sums (descriptors : List MemoryDescriptor) :
    (MemoryMap.from_uefi_descriptors descriptors).total_memory
      = saturatingSum (((MemoryMap.from_uefi_descriptors descriptors).regions.filter
          (fun r => !isMmioRegion r.region_type)).map (fun r => r.size)) ∧
    (MemoryMap.from_uefi_descriptors descriptors).usable_memory
      = saturatingSum (((MemoryMap.from_uefi_descriptors descriptors).regions.filter
          (fun r => r.region_type.is_usable)).map (fun r => r.size)) := by
  constructor
  · rw [total_memory_eq_min, saturatingSum_eq_min]
    have hperm := List.Perm.map (fun r : MemoryRegion => r.size)
      (List.Perm.filter (fun r => !isMmioRegion r.region_type) (regions_perm descriptors))
    rw [hperm.sum_eq]
  · rw [usable_memory_eq_min, saturatingSum_eq_min]
    have hperm := List.Perm.map (fun r : MemoryRegion => r.size)
      (List.Perm.filter (fun r => r.region_type.is_usable) (regions_perm descriptors))
    rw [hperm.sum_eq]

/-- C10: for every descriptor sequence, the built map satisfies
`usable_memory ≤ total_memory`. -/
theorem usable_memory_le_total_memory (descriptors : List MemoryDescriptor) :
    (MemoryMap.from_uefi_descriptors descriptors).usable_memory ≤
      (MemoryMap.from_uefi_descriptors descriptors).total_memory := by
  rw [usable_memory_eq_min, total_memory_eq_min]
  exact min_le_min (sum_filter_usable_le _) (Nat.le_refl _)

/-- C5 amended: `largest_usable_region` is none exactly when there is no
usable region; otherwise it returns a usable region of maximum size, and
among tied maximum-size usable regions it returns one with the greatest
start address (the last occurrence in sorted order, per `max_by_key`). -/
theorem largest_usable_region_spec (descriptors : List MemoryDescriptor) :
    ((MemoryMap.from_uefi_descriptors descriptors).largest_usable_region = none ↔
      (MemoryMap.from_uefi_descriptors descriptors).usable_regions = []) ∧
    (∀ r, (MemoryMap.from_uefi_descriptors descriptors).largest_usable_region = some r →
      r ∈ (MemoryMap.from_uefi_descriptors descriptors).usable_regions ∧
      (∀ y ∈ (MemoryMap.from_uefi_descriptors descriptors).usable_regions,
        y.size ≤ r.size) ∧
      (∀ y ∈ (MemoryMap.from_uefi_descriptors descriptors).usable_regions,
        y.size = r.size → y.start ≤ r.start)) := by
  have hsorted : List.Pairwise (fun a b : MemoryRegion => a.start ≤ b.start)
      (MemoryMap.from_uefi_descriptors descriptors).usable_regions :=
    (regions_sorted descriptors).filter _
  simp only [MemoryMap.largest_usable_region]
  cases hu : (MemoryMap.from_uefi_descriptors descriptors).usable_regions with
  | nil => simp [max_by_key]
  | cons x xs =>
    rw [hu] at hsorted
    obtain ⟨hmem, hbound, hties⟩ := foldl_max_spec (fun r => r.size) xs x hsorted
    refine ⟨by simp [max_by_key], ?_⟩
    intro r hr
    simp only [max_by_key, Option.some.injEq] at hr
    subst hr
    exact ⟨hmem, hbound, hties⟩

unseal List.merge List.mergeSort in
/-- C5 witness: on a single conventional page the amended theorem returns
that page as the largest usable region. -/
theorem largest_usable_region_spec_witness :
    (⟨0, 4096, MemoryRegionType.Conventional, 0⟩ : MemoryRegion) ∈
      (MemoryMap.from_uefi_descriptors [⟨0, 1, 7, 0⟩]).usable_regions :=
  ((largest_usable_region_spec [⟨0, 1, 7, 0⟩]).2
      ⟨0, 4096, MemoryRegionType.Conventional, 0⟩ (by decide)).1

unseal List.merge List.mergeSort in
/-- C5 counterexample: with two usable conventional pages of equal size at
0x0 and 0x3000 (the spec's own example scenario), `largest_usable_region`
returns the region at 0x3000, although the tied usable region at the lower
address 0x0 is in the map — refuting the lowest-address tie-break. -/
theorem largest_usable_region_tie_counterexample :
    (MemoryMap.from_uefi_descriptors
        [⟨0, 1, 7, 0⟩, ⟨4096, 2, 0, 0⟩, ⟨12288, 1, 7, 0⟩]).largest_usable_region
      = some ⟨12288, 4096, .Conventional, 0⟩ ∧
    (⟨0, 4096, .Conventional, 0⟩ : MemoryRegion) ∈
      (MemoryMap.from_uefi_descriptors
        [⟨0, 1, 7, 0⟩, ⟨4096, 2, 0, 0⟩, ⟨12288, 1, 7, 0⟩]).usable_regions := by
  refine ⟨by decide, by decide⟩

end Ferrous
